import Mathlib

/-!
Verification of the `BinaryManipulation` bit-field library
(src/BinaryManipulation.h) against its specification.

The C++ header is a compile-time template library; widths, masks and
shifts are template parameters.  The shallow embedding below represents
a backing type of width `wT` by natural numbers reduced modulo `2 ^ wT`
where the C++ code truncates, a logical ("slice") type by its bit width
`wR`, and the boolean logical type by `Bool`.  Each definition mirrors
one function or template of the header.
-/

set_option linter.unusedVariables false

/-- Bitwise complement `~mask` as computed on a `w`-bit unsigned type:
flip the low `w` bits.  For `mask < 2 ^ w` this is the exact image of the
C++ `~mask` of `BinaryManipulation.h` line 253. -/
def complementW (w mask : Nat) : Nat := (2 ^ w - 1) ^^^ mask

/-- `decode<T, R, mask, shift>` for integral (non-`bool`) `R`
(BinaryManipulation.h lines 226-236, `else` branch):
`static_cast<R>((value & mask) >> shift)`.  `wR` is the bit width of `R`;
the `static_cast` truncates modulo `2 ^ wR`. -/
def decodeNum (wR mask shift value : Nat) : Nat := ((value &&& mask) >>> shift) % 2 ^ wR

/-- `decode<T, R, mask, shift>` when `R` is `bool`
(BinaryManipulation.h lines 229-232): `return value & mask;` converted to
`bool`, i.e. true iff some masked bit is set.  The `shift` template
argument is present but unused in this branch. -/
def decodeBool (mask shift value : Nat) : Bool := value &&& mask != 0

/-- `encode<T, R, mask, shift>` for integral (non-`bool`) `R`
(BinaryManipulation.h lines 250-263, `else` branch):
`(value & ~mask) | ((static_cast<T>(input) << shift) & mask)`, all
arithmetic performed in the `wT`-bit unsigned type `T`. -/
def encodeNum (wT mask shift value input : Nat) : Nat :=
  (value &&& complementW wT mask) ||| ((((input % 2 ^ wT) <<< shift) % 2 ^ wT) &&& mask)

/-- `encode<T, R, mask, shift>` when `R` is `bool`
(BinaryManipulation.h lines 253-259): clear the masked bits of `value`,
then OR the whole mask back in when `input` is true. -/
def encodeBool (wT mask : Nat) (value : Nat) (input : Bool) : Nat :=
  let result := value &&& complementW wT mask
  if input then result ||| mask else result

/-- A decoded field value: the `SliceType` of a pattern, either an
integral value or a `bool`. -/
inductive Slice where
  | num (x : Nat)
  | flag (b : Bool)
deriving DecidableEq

/-- The class template `Pattern<T, R, mask, shift>`
(BinaryManipulation.h lines 271-297), as its constant data: the width
`wR` of the slice type `R` (constructor `num`, integral `R`) or the
`bool` slice type (constructor `flag`), with the `mask` and `shift`
template arguments. -/
inductive Pattern where
  | num (wR mask shift : Nat)
  | flag (mask shift : Nat)
deriving DecidableEq

/-- `Pattern::Mask`. -/
def Pattern.mask : Pattern → Nat
  | .num _ m _ => m
  | .flag m _ => m

/-- `Pattern::Shift`. -/
def Pattern.shift : Pattern → Nat
  | .num _ _ s => s
  | .flag _ s => s

/-- Bit width of the pattern's `SliceType` (`BitCount`,
BinaryManipulation.h lines 377-381; `BitCount<bool>` is specialized
to 1). -/
def Pattern.sliceWidth : Pattern → Nat
  | .num wR _ _ => wR
  | .flag _ _ => 1

/-- `Pattern::decode` (BinaryManipulation.h lines 286-288): dispatch to
the integral or `bool` branch of `BinaryManipulation::decode`. -/
def Pattern.decode (p : Pattern) (input : Nat) : Slice :=
  match p with
  | .num wR m s => .num (decodeNum wR m s input)
  | .flag m s => .flag (decodeBool m s input)

/-- `Pattern::encode(value, input)` (BinaryManipulation.h lines 289-291)
over backing width `wT`.  The mismatched cases (an integral pattern fed a
`bool` slice or vice versa) cannot arise in the C++ template code, where
the slice type is fixed by the pattern; they are mapped to the identity. -/
def Pattern.encode (wT : Nat) (p : Pattern) (value : Nat) (input : Slice) : Nat :=
  match p, input with
  | .num _ m s, .num x => encodeNum wT m s value x
  | .flag m _, .flag b => encodeBool wT m value b
  | _, _ => value

/-- Whether a slice value is of the pattern's `SliceType` (always true in
the C++ code, where this is enforced by the type system). -/
def Pattern.matchesSlice : Pattern → Slice → Bool
  | .num _ _ _, .num _ => true
  | .flag _ _, .flag _ => true
  | _, _ => false

/-- The fold expression `(Patterns::encode(value, inputs) | ...)` of
`Description::encode` (BinaryManipulation.h line 353): a right fold of
bitwise OR over the per-pattern encodes, each applied to the same
starting `value`. -/
def descEncodeFold (wT value : Nat) (p : Pattern) (s : Slice) : List (Pattern × Slice) → Nat
  | [] => Pattern.encode wT p value s
  | (q, t) :: rest => Pattern.encode wT p value s ||| descEncodeFold wT value q t rest

/-- `Description<T, Patterns...>::encode(value, inputs...)`
(BinaryManipulation.h lines 349-355): `value` itself when the pattern
pack is empty, otherwise the OR-fold of the per-pattern encodes.  A
`Description` is modelled as the list of its patterns, paired here with
the positional input for each. -/
def descEncode (wT value : Nat) : List (Pattern × Slice) → Nat
  | [] => value
  | (p, s) :: rest => descEncodeFold wT value p s rest

/-- `Description<T, Patterns...>::decode(input)`
(BinaryManipulation.h lines 337-345): each pattern decodes the same
input, results in declaration order.  (The C++ code unwraps a 1-tuple to
a bare value; the list model keeps the 1-element list.) -/
def descDecode (ps : List Pattern) (input : Nat) : List Slice :=
  ps.map (fun p => Pattern.decode p input)

/-- `Flag<T, position>` (BinaryManipulation.h lines 305-306; named
`FlagPattern` in the first revision of the header):
`BoolPattern<T, 1 << position, position>`. -/
def FlagPattern (position : Nat) : Pattern := .flag (1 <<< position) position

/-- `computeMaskFromLength` (BinaryManipulation.h lines 308-312):
`((1 << length) - 1) << offset`. -/
def computeMaskFromLength (length offset : Nat) : Nat := ((1 <<< length) - 1) <<< offset

/-- `FieldVector<T, R, lsbPos, length>` (BinaryManipulation.h lines
317-318): mask from `computeMaskFromLength(length, lsbPos)`, shift
`lsbPos`.  `wR` is the bit width of `R`. -/
def FieldVector (wR lsbPos length : Nat) : Pattern :=
  .num wR (computeMaskFromLength length lsbPos) lsbPos

/-- `FieldRange<T, R, start, end>` (BinaryManipulation.h lines 323-324):
`FieldVector<T, R, start, (end - start) + 1>`. -/
def FieldRange (wR start endPos : Nat) : Pattern := FieldVector wR start (endPos - start + 1)

/-- The `HalfOf` width table (BinaryManipulation.h lines 383-418): the
bit width of `HalfType_t<T>` for a backing type of width `w`.  The
primary template has no `HalfType`; unsupported widths are mapped to 0. -/
def halfTypeWidth : Nat → Nat
  | 8 => 8
  | 16 => 8
  | 32 => 16
  | 64 => 32
  | _ => 0

/-- Bit width of `QuarterType_t<T> = HalfType_t<HalfType_t<T>>`
(BinaryManipulation.h lines 422-423). -/
def quarterTypeWidth (w : Nat) : Nat := halfTypeWidth (halfTypeWidth w)

/-- `HalfShiftAmount<T> = BitCount<T> / 2` (BinaryManipulation.h line 425). -/
def HalfShiftAmount (w : Nat) : Nat := w / 2

/-- `QuarterShiftAmount<T> = BitCount<T> / 4` (BinaryManipulation.h line 427). -/
def QuarterShiftAmount (w : Nat) : Nat := w / 4

/-- `LowerHalfMask<T>` (BinaryManipulation.h lines 428-431):
`numeric_limits<HalfType_t<T>>::max()`, specialized to `0x0F` for the
8-bit types.  Unsigned backing types are modelled, so the max of the
half type of width `h` is `2 ^ h - 1`. -/
def LowerHalfMask (w : Nat) : Nat := if w = 8 then 0xF else 2 ^ halfTypeWidth w - 1

/-- `UpperHalfMask<T> = LowerHalfMask<T> << HalfShiftAmount<T>`
(BinaryManipulation.h lines 432-433), computed in the `w`-bit type. -/
def UpperHalfMask (w : Nat) : Nat := (LowerHalfMask w <<< HalfShiftAmount w) % 2 ^ w

/-- `LowestQuarterMask<T>` (BinaryManipulation.h lines 437-440):
`numeric_limits<QuarterType_t<T>>::max()`, specialized to `0b11` for the
8-bit types. -/
def LowestQuarterMask (w : Nat) : Nat := if w = 8 then 0b11 else 2 ^ quarterTypeWidth w - 1

/-- `LowerQuarterMask<T> = LowestQuarterMask<T> << QuarterShiftAmount<T>`
(BinaryManipulation.h lines 441-442). -/
def LowerQuarterMask (w : Nat) : Nat := (LowestQuarterMask w <<< QuarterShiftAmount w) % 2 ^ w

/-- `HigherQuarterMask<T> = LowerQuarterMask<T> << QuarterShiftAmount<T>`
(BinaryManipulation.h lines 443-444). -/
def HigherQuarterMask (w : Nat) : Nat := (LowerQuarterMask w <<< QuarterShiftAmount w) % 2 ^ w

/-- `HighestQuarterMask<T> = HigherQuarterMask<T> << QuarterShiftAmount<T>`
(BinaryManipulation.h lines 445-446). -/
def HighestQuarterMask (w : Nat) : Nat := (HigherQuarterMask w <<< QuarterShiftAmount w) % 2 ^ w

/-- `LowerHalfPattern<T>` (BinaryManipulation.h lines 462-463). -/
def LowerHalfPattern (w : Nat) : Pattern := .num (halfTypeWidth w) (LowerHalfMask w) 0

/-- `UpperHalfPattern<T>` (BinaryManipulation.h lines 460-461). -/
def UpperHalfPattern (w : Nat) : Pattern :=
  .num (halfTypeWidth w) (UpperHalfMask w) (HalfShiftAmount w)

/-- `LowestQuarterPattern<T>` (BinaryManipulation.h lines 471-472). -/
def LowestQuarterPattern (w : Nat) : Pattern :=
  .num (quarterTypeWidth w) (LowestQuarterMask w) 0

/-- `LowerQuarterPattern<T>` (BinaryManipulation.h lines 469-470). -/
def LowerQuarterPattern (w : Nat) : Pattern :=
  .num (quarterTypeWidth w) (LowerQuarterMask w) (QuarterShiftAmount w)

/-- `HigherQuarterPattern<T>` (BinaryManipulation.h lines 467-468). -/
def HigherQuarterPattern (w : Nat) : Pattern :=
  .num (quarterTypeWidth w) (HigherQuarterMask w) (QuarterShiftAmount w * 2)

/-- `HighestQuarterPattern<T>` (BinaryManipulation.h lines 465-466). -/
def HighestQuarterPattern (w : Nat) : Pattern :=
  .num (quarterTypeWidth w) (HighestQuarterMask w) (QuarterShiftAmount w * 3)

/-- `LittleEndianHalves<T>` (BinaryManipulation.h lines 476-477), as its
ordered pattern list. -/
def LittleEndianHalves (w : Nat) : List Pattern := [LowerHalfPattern w, UpperHalfPattern w]

/-- `LittleEndianQuarters<T>` (BinaryManipulation.h lines 480-481). -/
def LittleEndianQuarters (w : Nat) : List Pattern :=
  [LowestQuarterPattern w, LowerQuarterPattern w, HigherQuarterPattern w, HighestQuarterPattern w]

/-- `getHalves` (BinaryManipulation.h lines 483-486):
`unpack<T, LittleEndianHalves<T>>(input)`. -/
def getHalves (w input : Nat) : List Slice := descDecode (LittleEndianHalves w) input

/-- `fromHalves` (BinaryManipulation.h lines 488-491):
`LittleEndianHalves<T>::encode(a, b)`, the zero-base variadic encode. -/
def fromHalves (w a b : Nat) : Nat :=
  descEncode w 0 [(LowerHalfPattern w, .num a), (UpperHalfPattern w, .num b)]

/-- `getQuarters` (BinaryManipulation.h lines 493-496). -/
def getQuarters (w input : Nat) : List Slice := descDecode (LittleEndianQuarters w) input

/-- `fromQuarters` (BinaryManipulation.h lines 498-501). -/
def fromQuarters (w a b c d : Nat) : Nat :=
  descEncode w 0 [(LowestQuarterPattern w, .num a), (LowerQuarterPattern w, .num b),
    (HigherQuarterPattern w, .num c), (HighestQuarterPattern w, .num d)]

/-- OR-fold of a list of masks. -/
def orFold : List Nat → Nat
  | [] => 0
  | a :: rest => a ||| orFold rest

/-- The OR of the complements of the masks of a pattern/input list. -/
def complUnion (wT : Nat) (L : List (Pattern × Slice)) : Nat :=
  orFold (L.map (fun q => complementW wT (Prod.fst q).mask))

/-- All masks in the list are pairwise disjoint. -/
def pairwiseDisjointMasks : List Nat → Bool
  | [] => true
  | m :: rest => rest.all (fun n => m &&& n == 0) && pairwiseDisjointMasks rest

/-- The masks are pairwise disjoint and their union is every bit of a
`w`-bit type: each bit is covered exactly once. -/
def coversExactlyOnce (w : Nat) (ms : List Nat) : Bool :=
  pairwiseDisjointMasks ms && (ms.foldr (fun a b => a ||| b) 0 == 2 ^ w - 1)

/-- The two derived half masks of a backing type of width `w`. -/
def halfMasks (w : Nat) : List Nat := [LowerHalfMask w, UpperHalfMask w]

/-- The four derived quarter masks of a backing type of width `w`. -/
def quarterMasks (w : Nat) : List Nat :=
  [LowestQuarterMask w, LowerQuarterMask w, HigherQuarterMask w, HighestQuarterMask w]

/-! ### General facts about the encode/decode primitives -/

/-- Bits of the `w`-bit complement: set exactly at positions below `w`
where `mask` is clear. -/
theorem testBit_complementW (w mask i : Nat) (hm : mask < 2 ^ w) :
    (complementW w mask).testBit i = (decide (i < w) && !(mask.testBit i)) := by
  unfold complementW
  rw [Nat.testBit_xor, Nat.testBit_two_pow_sub_one]
  by_cases hi : i < w
  · simp [hi]
  · have hmi : mask < 2 ^ i :=
      lt_of_lt_of_le hm (Nat.pow_le_pow_right (by norm_num) (Nat.le_of_not_lt hi))
    simp [hi, Nat.testBit_lt_two_pow hmi]

/-- The truncations of the C++ `wT`-bit arithmetic in `encodeNum` are
absorbed by the final `&&& mask` as long as the mask fits in `wT` bits. -/
theorem and_mask_mod_collapse (wT mask shift input : Nat) (hm : mask < 2 ^ wT) :
    (((input % 2 ^ wT) <<< shift) % 2 ^ wT) &&& mask = (input <<< shift) &&& mask := by
  apply Nat.eq_of_testBit_eq
  intro i
  simp only [Nat.testBit_and, Nat.testBit_mod_two_pow, Nat.testBit_shiftLeft]
  by_cases hmi : mask.testBit i
  · have hi : i < wT := by
      by_contra hge
      have : mask < 2 ^ i :=
        lt_of_lt_of_le hm (Nat.pow_le_pow_right (by norm_num) (Nat.le_of_not_lt hge))
      simp [Nat.testBit_lt_two_pow this] at hmi
    have hi2 : i - shift < wT := lt_of_le_of_lt (Nat.sub_le i shift) hi
    simp [hmi, hi, hi2]
  · simp [hmi]

/-- `encodeNum` coincides with the untruncated clear-then-insert formula
whenever the mask fits in the backing width. -/
theorem encodeNum_eq (wT mask shift value input : Nat) (hm : mask < 2 ^ wT) :
    encodeNum wT mask shift value input =
      (value &&& complementW wT mask) ||| ((input <<< shift) &&& mask) := by
  unfold encodeNum
  rw [and_mask_mod_collapse wT mask shift input hm]

/-! ### Claim theorems (part 1) -/

/-- Claim C1, counterexample.  The claim asserts
`Flag(8).decode(0b1_0111_1111) == false`, but `0b1_0111_1111 = 0x17F`
has bit 8 set, so the flag decodes to `true`.  (The header's own
`static_assert` at line 511 tests `0b10_1111_1111 = 0x2FF`, whose bit 8
is clear.) -/
theorem flag8_decode_0x17F :
    Pattern.decode (FlagPattern 8) 0b101111111 = Slice.flag true ∧
    ¬ Pattern.decode (FlagPattern 8) 0b101111111 = Slice.flag false := by
  decide

/-- Claim C1, amended: the flag on bit 8 of a 32-bit backing type decodes
`0b1_0000_0000` to `true` and decodes `0b10_1111_1111` (the value of the
header's `static_assert`, bit 8 clear) to `false`. -/
theorem flag8_boundary :
    Pattern.decode (FlagPattern 8) 0b100000000 = Slice.flag true ∧
    Pattern.decode (FlagPattern 8) 0b1011111111 = Slice.flag false := by
  decide

/-- Claim C7: a `FieldVector` field has
`Mask = ((1 << length) - 1) << lsbPosition` and `Shift = lsbPosition`;
the 12-bit field at offset 4 decodes `0xABCD` to `0xABC`, and encoding
`0xD` into bits 0..3 together with `0xABC` into bits 4..15 of a zero base
reconstructs `0xABCD`. -/
theorem fieldVector_mask_shift (wT wR lsbPos length : Nat)
    (h1 : 0 < length) (h2 : lsbPos + length ≤ wT) :
    (FieldVector wR lsbPos length).mask = ((1 <<< length) - 1) <<< lsbPos ∧
    (FieldVector wR lsbPos length).shift = lsbPos ∧
    Pattern.decode (FieldVector 32 4 12) 0xABCD = Slice.num 0xABC ∧
    descEncode 32 0 [(FieldVector 32 0 4, Slice.num 0xD), (FieldVector 32 4 12, Slice.num 0xABC)]
      = 0xABCD :=
  ⟨rfl, rfl, by decide, by decide⟩

/-- Claim C7, witness: the hypotheses hold for the 12-bit field at offset
4 of a 32-bit backing type. -/
theorem fieldVector_mask_shift_witness :
    (FieldVector 32 4 12).mask = ((1 <<< 12) - 1) <<< 4 ∧
    (FieldVector 32 4 12).shift = 4 ∧
    Pattern.decode (FieldVector 32 4 12) 0xABCD = Slice.num 0xABC ∧
    descEncode 32 0 [(FieldVector 32 0 4, Slice.num 0xD), (FieldVector 32 4 12, Slice.num 0xABC)]
      = 0xABCD :=
  fieldVector_mask_shift 32 32 4 12 (by decide) (by decide)

/-- Claim C9: the derived half masks tile every supported unsigned
backing width, and the quarter masks tile widths 8, 32 and 64 — but for
width 16 the quarter masks are `0xFF, 0xFF0, 0xFF00, 0xF000` (the
quarter type of `uint16_t` collapses to `uint8_t`, and no specialization
of `LowestQuarterMask` covers this case as it does for the 8-bit types),
so they overlap: the claimed invariant fails on `uint16_t`. -/
theorem derived_mask_coverage :
    coversExactlyOnce 8 (halfMasks 8) = true ∧
    coversExactlyOnce 16 (halfMasks 16) = true ∧
    coversExactlyOnce 32 (halfMasks 32) = true ∧
    coversExactlyOnce 64 (halfMasks 64) = true ∧
    coversExactlyOnce 8 (quarterMasks 8) = true ∧
    coversExactlyOnce 32 (quarterMasks 32) = true ∧
    coversExactlyOnce 64 (quarterMasks 64) = true ∧
    quarterMasks 16 = [0xFF, 0xFF0, 0xFF00, 0xF000] ∧
    LowestQuarterMask 16 &&& LowerQuarterMask 16 = 0xF0 ∧
    pairwiseDisjointMasks (quarterMasks 16) = false := by
  decide

/-- Claim C10: a zero-field `Description` encodes any base to itself and
decodes any value to the empty tuple. -/
theorem empty_description (wT base v : Nat) :
    descEncode wT base [] = base ∧ descDecode [] v = [] :=
  ⟨rfl, rfl⟩

/-- Claim C3: for a single field, `encode(base, x)` is `base` with the
bits under `Mask` cleared and replaced by `(x << Shift) & Mask`; for the
boolean logical type the masked bits become `Mask` when the input is
true and `0` when it is false.  The numeric equation holds for every
input `x`, however wide: an oversized logical value is silently
truncated by the `& Mask` step, never rejected. -/
theorem encode_clear_insert (wT mask shift base x : Nat) (hm : mask < 2 ^ wT) :
    encodeNum wT mask shift base x =
      (base &&& complementW wT mask) ||| ((x <<< shift) &&& mask) ∧
    encodeBool wT mask base true = (base &&& complementW wT mask) ||| mask ∧
    encodeBool wT mask base false = base &&& complementW wT mask :=
  ⟨encodeNum_eq wT mask shift base x hm, rfl, rfl⟩

/-- Claim C3, witness: the byte-1 field of a 32-bit word
(`mask = 0xFF00`, `shift = 8`) with the oversized 9-bit input `0x1FF`. -/
theorem encode_clear_insert_witness :
    encodeNum 32 0xFF00 8 0x12345678 0x1FF =
      (0x12345678 &&& complementW 32 0xFF00) ||| ((0x1FF <<< 8) &&& 0xFF00) ∧
    encodeBool 32 0xFF00 0x12345678 true = (0x12345678 &&& complementW 32 0xFF00) ||| 0xFF00 ∧
    encodeBool 32 0xFF00 0x12345678 false = 0x12345678 &&& complementW 32 0xFF00 :=
  encode_clear_insert 32 0xFF00 8 0x12345678 0x1FF (by decide)

/-- Claim C4: for a single field, numeric decode returns
`(value & Mask) >> Shift` converted to the logical type (reduction
modulo `2 ^ wR`), and boolean decode is true exactly when some masked
bit is set — the `Shift` argument does not influence it. -/
theorem decode_extract (wR mask shift v : Nat) :
    decodeNum wR mask shift v = ((v &&& mask) >>> shift) % 2 ^ wR ∧
    decodeBool mask shift v = decide (v &&& mask ≠ 0) ∧
    decodeBool mask shift v = decodeBool mask 0 v := by
  refine ⟨rfl, ?_, rfl⟩
  unfold decodeBool
  by_cases h : v &&& mask = 0 <;> simp [h]

/-- `encodeBool` on input `true`: clear, then OR the mask in. -/
theorem encodeBool_true (wT m value : Nat) :
    encodeBool wT m value true = (value &&& complementW wT m) ||| m := rfl

/-- `encodeBool` on input `false`: just clear the masked bits. -/
theorem encodeBool_false (wT m value : Nat) :
    encodeBool wT m value false = value &&& complementW wT m := rfl

/-- Clearing under a fitting mask touches no bit outside the mask (below
the backing width). -/
theorem and_compl_frame (wT m base i : Nat) (hbase : base < 2 ^ wT) (hm : m < 2 ^ wT)
    (hi : m.testBit i = false) :
    (base &&& complementW wT m).testBit i = base.testBit i := by
  rw [Nat.testBit_and, testBit_complementW wT m i hm, hi]
  by_cases hiw : i < wT
  · simp [hiw]
  · have hb : base < 2 ^ i :=
      lt_of_lt_of_le hbase (Nat.pow_le_pow_right (by norm_num) (Nat.le_of_not_lt hiw))
    simp [hiw, Nat.testBit_lt_two_pow hb]

/-- A single pattern's encode leaves every bit outside its mask
unchanged. -/
theorem patEncode_frame (wT : Nat) (p : Pattern) (base : Nat) (s : Slice) (i : Nat)
    (hbase : base < 2 ^ wT) (hp : p.mask < 2 ^ wT) (hi : p.mask.testBit i = false) :
    (Pattern.encode wT p base s).testBit i = base.testBit i := by
  cases p with
  | num wR m sh =>
    cases s with
    | num x =>
      simp only [Pattern.mask] at hp hi
      simp only [Pattern.encode, encodeNum, Nat.testBit_or]
      have hP : ((((x % 2 ^ wT) <<< sh) % 2 ^ wT) &&& m).testBit i = false := by
        rw [Nat.testBit_and, hi, Bool.and_false]
      rw [hP, Bool.or_false]
      exact and_compl_frame wT m base i hbase hp hi
    | flag b => rfl
  | flag m sh =>
    cases s with
    | num x => rfl
    | flag b =>
      simp only [Pattern.mask] at hp hi
      cases b with
      | true =>
        simp only [Pattern.encode, encodeBool_true, Nat.testBit_or, hi, Bool.or_false]
        exact and_compl_frame wT m base i hbase hp hi
      | false =>
        simp only [Pattern.encode, encodeBool_false]
        exact and_compl_frame wT m base i hbase hp hi

/-- The OR-fold of `Description::encode` leaves every bit outside all the
masks unchanged. -/
theorem descEncodeFold_frame (wT base i : Nat) (p : Pattern) (s : Slice)
    (L : List (Pattern × Slice))
    (hbase : base < 2 ^ wT) (hp : p.mask < 2 ^ wT)
    (hL : ∀ q ∈ L, (Prod.fst q).mask < 2 ^ wT)
    (hip : p.mask.testBit i = false)
    (hiL : ∀ q ∈ L, ((Prod.fst q).mask).testBit i = false) :
    (descEncodeFold wT base p s L).testBit i = base.testBit i := by
  induction L generalizing p s with
  | nil => exact patEncode_frame wT p base s i hbase hp hip
  | cons hd tl ih =>
    obtain ⟨q, t⟩ := hd
    simp only [descEncodeFold, Nat.testBit_or]
    rw [patEncode_frame wT p base s i hbase hp hip,
      ih q t (hL _ (List.mem_cons_self _ _))
        (fun r hr => hL r (List.mem_cons_of_mem _ hr))
        (hiL _ (List.mem_cons_self _ _))
        (fun r hr => hiL r (List.mem_cons_of_mem _ hr))]
    exact Bool.or_self _

/-- Claim C5: a single field's encode leaves every bit of `base` outside
its `Mask` unchanged, and a `Description`'s encode leaves every bit not
covered by any of its fields' masks unchanged. -/
theorem encode_frame (wT : Nat) (p : Pattern) (s : Slice) (base i : Nat)
    (L : List (Pattern × Slice))
    (hbase : base < 2 ^ wT) (hp : p.mask < 2 ^ wT)
    (hL : ∀ q ∈ L, (Prod.fst q).mask < 2 ^ wT)
    (hip : p.mask.testBit i = false)
    (hiL : ∀ q ∈ L, ((Prod.fst q).mask).testBit i = false) :
    (Pattern.encode wT p base s).testBit i = base.testBit i ∧
    (descEncode wT base L).testBit i = base.testBit i := by
  refine ⟨patEncode_frame wT p base s i hbase hp hip, ?_⟩
  cases L with
  | nil => rfl
  | cons hd tl =>
    obtain ⟨q, t⟩ := hd
    exact descEncodeFold_frame wT base i q t tl hbase
      (hL _ (List.mem_cons_self _ _))
      (fun r hr => hL r (List.mem_cons_of_mem _ hr))
      (hiL _ (List.mem_cons_self _ _))
      (fun r hr => hiL r (List.mem_cons_of_mem _ hr))

/-- Claim C5, witness: writing both halves of a 32-bit word touches
neither bit 32 nor any bit of a byte-1 field's complement — here bit 16
of the byte-1 field `mask = 0xFF00`, and bit 0 for the half fields of a
description missing it... instantiated at bit 16 for the single field
and the two-field description `[byte2, byte3]` of a 32-bit word. -/
theorem encode_frame_witness :
    (Pattern.encode 32 (Pattern.num 8 0xFF00 8) 0x12345678 (Slice.num 0xAB)).testBit 16 =
      (0x12345678 : Nat).testBit 16 ∧
    (descEncode 32 0x12345678
      [(Pattern.num 8 0xFF0000 16, Slice.num 0xAB),
       (Pattern.num 8 0xFF000000 24, Slice.num 0xCD)]).testBit 8 =
      (0x12345678 : Nat).testBit 8 := by
  constructor
  · exact (encode_frame 32 (Pattern.num 8 0xFF00 8) (Slice.num 0xAB) 0x12345678 16 []
      (by decide) (by decide) (by decide) (by decide) (by decide)).1
  · exact (encode_frame 32 (Pattern.num 8 0xFF0000 16) (Slice.num 0xAB) 0x12345678 8
      [(Pattern.num 8 0xFF0000 16, Slice.num 0xAB),
       (Pattern.num 8 0xFF000000 24, Slice.num 0xCD)]
      (by decide) (by decide) (by decide) (by decide) (by decide)).2

/-- Boolean absorption behind idempotent re-encode: re-clearing and
re-inserting the same payload changes nothing. -/
theorem clear_insert_absorb (B c P : Nat) : (((B &&& c) ||| P) &&& c) ||| P = (B &&& c) ||| P := by
  apply Nat.eq_of_testBit_eq
  intro i
  simp only [Nat.testBit_or, Nat.testBit_and]
  cases B.testBit i <;> cases c.testBit i <;> cases P.testBit i <;> rfl

/-- Claim C8: encoding the same value twice onto the same base equals
encoding it once, for a field whose logical type exactly fills its mask
width. -/
theorem encode_idempotent (wT : Nat) (p : Pattern) (base : Nat) (s : Slice)
    (hm : p.mask < 2 ^ wT)
    (hfill : p.mask >>> p.shift = 2 ^ p.sliceWidth - 1) :
    Pattern.encode wT p (Pattern.encode wT p base s) s = Pattern.encode wT p base s := by
  cases p with
  | num wR m sh =>
    cases s with
    | num x =>
      simp only [Pattern.encode, encodeNum]
      exact clear_insert_absorb base (complementW wT m) _
    | flag b => rfl
  | flag m sh =>
    cases s with
    | num x => rfl
    | flag b =>
      cases b with
      | true =>
        simp only [Pattern.encode, encodeBool_true]
        exact clear_insert_absorb base (complementW wT m) m
      | false =>
        simp only [Pattern.encode, encodeBool_false]
        rw [Nat.and_assoc, Nat.and_self]

/-- Claim C8, witness: the byte-0 field of a 32-bit word (logical type
of width 8, mask `0xFF`), re-encoding `0x34` onto `0xDEADBEEF`. -/
theorem encode_idempotent_witness :
    Pattern.encode 32 (Pattern.num 8 0xFF 0)
        (Pattern.encode 32 (Pattern.num 8 0xFF 0) 0xDEADBEEF (Slice.num 0x34))
        (Slice.num 0x34) =
      Pattern.encode 32 (Pattern.num 8 0xFF 0) 0xDEADBEEF (Slice.num 0x34) :=
  encode_idempotent 32 (Pattern.num 8 0xFF 0) 0xDEADBEEF (Slice.num 0x34)
    (by decide) (by decide)

/-- Zero-base encode of a fitting field is just the shifted-and-masked
payload (`Pattern::encode(input)` forwards to `encode(0, input)`,
BinaryManipulation.h lines 292-294). -/
theorem encodeNum_zero (wT m sh x : Nat) (hm : m < 2 ^ wT) :
    encodeNum wT m sh 0 x = (x <<< sh) &&& m := by
  rw [encodeNum_eq wT m sh 0 x hm, Nat.zero_and, Nat.zero_or]

/-- Numeric decode of a `k`-bit subfield at offset `off` extracts the
corresponding bits of the value. -/
theorem decodeNum_subfield (k off v : Nat) :
    decodeNum k ((2 ^ k - 1) <<< off) off v = (v >>> off) &&& (2 ^ k - 1) := by
  apply Nat.eq_of_testBit_eq
  intro i
  simp only [decodeNum, Nat.testBit_mod_two_pow, Nat.testBit_shiftRight, Nat.testBit_and,
    Nat.testBit_shiftLeft, Nat.testBit_two_pow_sub_one, ge_iff_le]
  by_cases hi : i < k
  · have h1 : off ≤ off + i := Nat.le_add_right off i
    have h2 : off + i - off = i := by omega
    simp [hi, h1, h2, Bool.and_comm]
  · simp [hi]

/-- The half patterns of a 32-bit backing type, in subfield form. -/
theorem lowerHalfPattern32 : LowerHalfPattern 32 = Pattern.num 16 ((2 ^ 16 - 1) <<< 0) 0 := by
  decide

/-- The upper half pattern of a 32-bit backing type, in subfield form. -/
theorem upperHalfPattern32 : UpperHalfPattern 32 = Pattern.num 16 ((2 ^ 16 - 1) <<< 16) 16 := by
  decide

/-- `getHalves` over 32 bits returns the low and high 16-bit words,
lowest first. -/
theorem getHalves32_eq (v : Nat) :
    getHalves 32 v = [Slice.num (v &&& 0xFFFF), Slice.num ((v >>> 16) &&& 0xFFFF)] := by
  have h0 : (0xFFFF : Nat) = 2 ^ 16 - 1 := by norm_num
  simp only [getHalves, descDecode, LittleEndianHalves, List.map, lowerHalfPattern32,
    upperHalfPattern32, Pattern.decode, decodeNum_subfield, Nat.shiftRight_zero, h0]

/-- Joining the two 16-bit words of a 32-bit value restores the value. -/
theorem fromHalves32_roundtrip (v : Nat) (hv : v < 2 ^ 32) :
    fromHalves 32 (v &&& 0xFFFF) ((v >>> 16) &&& 0xFFFF) = v := by
  have e1 : LowerHalfPattern 32 = Pattern.num 16 0xFFFF 0 := by decide
  have e2 : UpperHalfPattern 32 = Pattern.num 16 0xFFFF0000 16 := by decide
  have E1 : encodeNum 32 0xFFFF 0 0 (v &&& 0xFFFF) = ((v &&& 0xFFFF) <<< 0) &&& 0xFFFF :=
    encodeNum_zero 32 0xFFFF 0 _ (by norm_num)
  have E2 : encodeNum 32 0xFFFF0000 16 0 ((v >>> 16) &&& 0xFFFF) =
      (((v >>> 16) &&& 0xFFFF) <<< 16) &&& 0xFFFF0000 :=
    encodeNum_zero 32 0xFFFF0000 16 _ (by norm_num)
  have t16 : ∀ j, Nat.testBit 0xFFFF j = decide (j < 16) := fun j => by
    rw [(by norm_num : (0xFFFF : Nat) = 2 ^ 16 - 1), Nat.testBit_two_pow_sub_one]
  have thi : ∀ j, Nat.testBit 0xFFFF0000 j = (decide (16 ≤ j) && decide (j - 16 < 16)) :=
    fun j => by
      rw [(by decide : (0xFFFF0000 : Nat) = (2 ^ 16 - 1) <<< 16), Nat.testBit_shiftLeft,
        Nat.testBit_two_pow_sub_one]
  apply Nat.eq_of_testBit_eq
  intro i
  simp only [fromHalves, descEncode, descEncodeFold, e1, e2, Pattern.encode, E1, E2,
    Nat.shiftLeft_zero, Nat.testBit_or, Nat.testBit_and, Nat.testBit_shiftLeft,
    Nat.testBit_shiftRight, t16, thi, ge_iff_le]
  by_cases h1 : i < 16
  · have ha : ¬ 16 ≤ i := by omega
    simp [h1, ha]
  · by_cases h2 : i < 32
    · have ha : 16 ≤ i := by omega
      have hb : 16 + (i - 16) = i := by omega
      have hc : i - 16 < 16 := by omega
      simp [h1, h2, ha, hb, hc]
    · have ha : 16 ≤ i := by omega
      have hc : ¬ (i - 16 < 16) := by omega
      have hv2 : v < 2 ^ i :=
        lt_of_lt_of_le hv (Nat.pow_le_pow_right (by norm_num) (by omega))
      simp [h1, ha, hc, Nat.testBit_lt_two_pow hv2]

/-- The lowest quarter pattern of a 32-bit backing type, in subfield form. -/
theorem lowestQuarterPattern32 :
    LowestQuarterPattern 32 = Pattern.num 8 ((2 ^ 8 - 1) <<< 0) 0 := by decide

/-- The lower quarter pattern of a 32-bit backing type, in subfield form. -/
theorem lowerQuarterPattern32 :
    LowerQuarterPattern 32 = Pattern.num 8 ((2 ^ 8 - 1) <<< 8) 8 := by decide

/-- The higher quarter pattern of a 32-bit backing type, in subfield form. -/
theorem higherQuarterPattern32 :
    HigherQuarterPattern 32 = Pattern.num 8 ((2 ^ 8 - 1) <<< 16) 16 := by decide

/-- The highest quarter pattern of a 32-bit backing type, in subfield form. -/
theorem highestQuarterPattern32 :
    HighestQuarterPattern 32 = Pattern.num 8 ((2 ^ 8 - 1) <<< 24) 24 := by decide

/-- `getQuarters` over 32 bits returns the four bytes, lowest first. -/
theorem getQuarters32_eq (v : Nat) :
    getQuarters 32 v = [Slice.num (v &&& 0xFF), Slice.num ((v >>> 8) &&& 0xFF),
      Slice.num ((v >>> 16) &&& 0xFF), Slice.num ((v >>> 24) &&& 0xFF)] := by
  have h0 : (0xFF : Nat) = 2 ^ 8 - 1 := by norm_num
  simp only [getQuarters, descDecode, LittleEndianQuarters, List.map, lowestQuarterPattern32,
    lowerQuarterPattern32, higherQuarterPattern32, highestQuarterPattern32, Pattern.decode,
    decodeNum_subfield, Nat.shiftRight_zero, h0]

/-- Joining the four bytes of a 32-bit value restores the value. -/
theorem fromQuarters32_roundtrip (v : Nat) (hv : v < 2 ^ 32) :
    fromQuarters 32 (v &&& 0xFF) ((v >>> 8) &&& 0xFF) ((v >>> 16) &&& 0xFF)
      ((v >>> 24) &&& 0xFF) = v := by
  have e0 : LowestQuarterPattern 32 = Pattern.num 8 0xFF 0 := by decide
  have e1 : LowerQuarterPattern 32 = Pattern.num 8 0xFF00 8 := by decide
  have e2 : HigherQuarterPattern 32 = Pattern.num 8 0xFF0000 16 := by decide
  have e3 : HighestQuarterPattern 32 = Pattern.num 8 0xFF000000 24 := by decide
  have E0 : encodeNum 32 0xFF 0 0 (v &&& 0xFF) = ((v &&& 0xFF) <<< 0) &&& 0xFF :=
    encodeNum_zero 32 0xFF 0 _ (by norm_num)
  have E1 : encodeNum 32 0xFF00 8 0 ((v >>> 8) &&& 0xFF) =
      (((v >>> 8) &&& 0xFF) <<< 8) &&& 0xFF00 :=
    encodeNum_zero 32 0xFF00 8 _ (by norm_num)
  have E2 : encodeNum 32 0xFF0000 16 0 ((v >>> 16) &&& 0xFF) =
      (((v >>> 16) &&& 0xFF) <<< 16) &&& 0xFF0000 :=
    encodeNum_zero 32 0xFF0000 16 _ (by norm_num)
  have E3 : encodeNum 32 0xFF000000 24 0 ((v >>> 24) &&& 0xFF) =
      (((v >>> 24) &&& 0xFF) <<< 24) &&& 0xFF000000 :=
    encodeNum_zero 32 0xFF000000 24 _ (by norm_num)
  have t0 : ∀ j, Nat.testBit 0xFF j = decide (j < 8) := fun j => by
    rw [(by decide : (0xFF : Nat) = 2 ^ 8 - 1), Nat.testBit_two_pow_sub_one]
  have t1 : ∀ j, Nat.testBit 0xFF00 j = (decide (8 ≤ j) && decide (j - 8 < 8)) := fun j => by
    rw [(by decide : (0xFF00 : Nat) = (2 ^ 8 - 1) <<< 8), Nat.testBit_shiftLeft,
      Nat.testBit_two_pow_sub_one]
  have t2 : ∀ j, Nat.testBit 0xFF0000 j = (decide (16 ≤ j) && decide (j - 16 < 8)) := fun j => by
    rw [(by decide : (0xFF0000 : Nat) = (2 ^ 8 - 1) <<< 16), Nat.testBit_shiftLeft,
      Nat.testBit_two_pow_sub_one]
  have t3 : ∀ j, Nat.testBit 0xFF000000 j = (decide (24 ≤ j) && decide (j - 24 < 8)) :=
    fun j => by
      rw [(by decide : (0xFF000000 : Nat) = (2 ^ 8 - 1) <<< 24), Nat.testBit_shiftLeft,
        Nat.testBit_two_pow_sub_one]
  apply Nat.eq_of_testBit_eq
  intro i
  simp only [fromQuarters, descEncode, descEncodeFold, e0, e1, e2, e3, Pattern.encode,
    E0, E1, E2, E3, Nat.shiftLeft_zero, Nat.testBit_or, Nat.testBit_and, Nat.testBit_shiftLeft,
    Nat.testBit_shiftRight, t0, t1, t2, t3, ge_iff_le]
  by_cases h0 : i < 8
  · have ha : ¬ 8 ≤ i := by omega
    have hb : ¬ 16 ≤ i := by omega
    have hc : ¬ 24 ≤ i := by omega
    simp [h0, ha, hb, hc]
  · by_cases h1 : i < 16
    · have ha : 8 ≤ i := by omega
      have hb : ¬ 16 ≤ i := by omega
      have hc : ¬ 24 ≤ i := by omega
      have hd : 8 + (i - 8) = i := by omega
      have he : i - 8 < 8 := by omega
      simp [h0, h1, ha, hb, hc, hd, he]
    · by_cases h2 : i < 24
      · have ha : 8 ≤ i := by omega
        have hb : 16 ≤ i := by omega
        have hc : ¬ 24 ≤ i := by omega
        have hd : 16 + (i - 16) = i := by omega
        have he : i - 16 < 8 := by omega
        have hf : ¬ (i - 8 < 8) := by omega
        simp [h0, h1, h2, ha, hb, hc, hd, he, hf]
      · by_cases h3 : i < 32
        · have ha : 8 ≤ i := by omega
          have hb : 16 ≤ i := by omega
          have hc : 24 ≤ i := by omega
          have hd : 24 + (i - 24) = i := by omega
          have he : i - 24 < 8 := by omega
          have hf : ¬ (i - 8 < 8) := by omega
          have hg : ¬ (i - 16 < 8) := by omega
          simp [h0, h1, h2, h3, ha, hb, hc, hd, he, hf, hg]
        · have hf : ¬ (i - 8 < 8) := by omega
          have hg : ¬ (i - 16 < 8) := by omega
          have hh : ¬ (i - 24 < 8) := by omega
          have hv2 : v < 2 ^ i :=
            lt_of_lt_of_le hv (Nat.pow_le_pow_right (by norm_num) (by omega))
          simp [h0, hf, hg, hh, Nat.testBit_lt_two_pow hv2]

/-- Claim C2: over 32 bits, `getHalves` returns
`(v & 0xFFFF, (v >> 16) & 0xFFFF)` lowest-first and `fromHalves` undoes
it; `getQuarters`/`fromQuarters` behave likewise byte-wise, and
`0xFDEDABCD` splits into `(0xCD, 0xAB, 0xED, 0xFD)`. -/
theorem halves_quarters_split_join (v : Nat) (hv : v < 2 ^ 32) :
    getHalves 32 v = [Slice.num (v &&& 0xFFFF), Slice.num ((v >>> 16) &&& 0xFFFF)] ∧
    fromHalves 32 (v &&& 0xFFFF) ((v >>> 16) &&& 0xFFFF) = v ∧
    getQuarters 32 v = [Slice.num (v &&& 0xFF), Slice.num ((v >>> 8) &&& 0xFF),
      Slice.num ((v >>> 16) &&& 0xFF), Slice.num ((v >>> 24) &&& 0xFF)] ∧
    fromQuarters 32 (v &&& 0xFF) ((v >>> 8) &&& 0xFF) ((v >>> 16) &&& 0xFF)
      ((v >>> 24) &&& 0xFF) = v ∧
    getQuarters 32 0xFDEDABCD =
      [Slice.num 0xCD, Slice.num 0xAB, Slice.num 0xED, Slice.num 0xFD] :=
  ⟨getHalves32_eq v, fromHalves32_roundtrip v hv, getQuarters32_eq v,
   fromQuarters32_roundtrip v hv, by decide⟩

/-- Claim C2, witness: instantiated at `v = 0xFDEDABCD`. -/
theorem halves_quarters_split_join_witness :
    getHalves 32 0xFDEDABCD =
      [Slice.num (0xFDEDABCD &&& 0xFFFF), Slice.num ((0xFDEDABCD >>> 16) &&& 0xFFFF)] ∧
    fromHalves 32 (0xFDEDABCD &&& 0xFFFF) ((0xFDEDABCD >>> 16) &&& 0xFFFF) = 0xFDEDABCD ∧
    getQuarters 32 0xFDEDABCD = [Slice.num (0xFDEDABCD &&& 0xFF),
      Slice.num ((0xFDEDABCD >>> 8) &&& 0xFF), Slice.num ((0xFDEDABCD >>> 16) &&& 0xFF),
      Slice.num ((0xFDEDABCD >>> 24) &&& 0xFF)] ∧
    fromQuarters 32 (0xFDEDABCD &&& 0xFF) ((0xFDEDABCD >>> 8) &&& 0xFF)
      ((0xFDEDABCD >>> 16) &&& 0xFF) ((0xFDEDABCD >>> 24) &&& 0xFF) = 0xFDEDABCD ∧
    getQuarters 32 0xFDEDABCD =
      [Slice.num 0xCD, Slice.num 0xAB, Slice.num 0xED, Slice.num 0xFD] :=
  halves_quarters_split_join 0xFDEDABCD (by decide)

/-- A bit of an OR-fold is set iff it is set in some element. -/
theorem testBit_orFold (L : List Nat) (i : Nat) :
    (orFold L).testBit i = L.any (fun a => a.testBit i) := by
  induction L with
  | nil => simp [orFold]
  | cons a rest ih => simp [orFold, ih]

/-- A matched pattern encode over `base` splits into the cleared base
OR-ed with the zero-base encode. -/
theorem patEncode_split (wT : Nat) (p : Pattern) (base : Nat) (s : Slice)
    (h : Pattern.matchesSlice p s = true) :
    Pattern.encode wT p base s =
      (base &&& complementW wT p.mask) ||| Pattern.encode wT p 0 s := by
  cases p with
  | num wR m sh =>
    cases s with
    | num x =>
      simp only [Pattern.encode, encodeNum, Pattern.mask, Nat.zero_and, Nat.zero_or]
    | flag b => exact absurd h (by simp [Pattern.matchesSlice])
  | flag m sh =>
    cases s with
    | num x => exact absurd h (by simp [Pattern.matchesSlice])
    | flag b =>
      cases b with
      | true =>
        simp only [Pattern.encode, encodeBool_true, Pattern.mask, Nat.zero_and, Nat.zero_or]
      | false =>
        simp only [Pattern.encode, encodeBool_false, Pattern.mask, Nat.zero_and, Nat.or_zero]

/-- Distributing a shared base across two clear-and-insert terms. -/
theorem or_and_shuffle (b c1 c2 z1 z2 : Nat) :
    ((b &&& c1) ||| z1) ||| ((b &&& c2) ||| z2) = (b &&& (c1 ||| c2)) ||| (z1 ||| z2) := by
  apply Nat.eq_of_testBit_eq
  intro i
  simp only [Nat.testBit_or, Nat.testBit_and]
  cases b.testBit i <;> cases c1.testBit i <;> cases c2.testBit i <;>
    cases z1.testBit i <;> cases z2.testBit i <;> rfl

/-- The OR-fold of `Description::encode` over `base` splits into
`base` masked by the union of the mask complements, OR-ed with the
zero-base fold. -/
theorem descEncodeFold_split (wT base : Nat) (p : Pattern) (s : Slice)
    (L : List (Pattern × Slice))
    (hp : Pattern.matchesSlice p s = true)
    (hL : ∀ q ∈ L, Pattern.matchesSlice (Prod.fst q) (Prod.snd q) = true) :
    descEncodeFold wT base p s L =
      (base &&& (complementW wT p.mask ||| complUnion wT L)) ||| descEncodeFold wT 0 p s L := by
  induction L generalizing p s with
  | nil =>
    simp only [descEncodeFold, complUnion, List.map_nil, orFold, Nat.or_zero]
    exact patEncode_split wT p base s hp
  | cons hd tl ih =>
    obtain ⟨q, t⟩ := hd
    simp only [descEncodeFold, complUnion, List.map_cons, orFold]
    rw [patEncode_split wT p base s hp,
      ih q t (hL _ (List.mem_cons_self _ _)) (fun r hr => hL r (List.mem_cons_of_mem _ hr))]
    exact or_and_shuffle base (complementW wT p.mask)
      (complementW wT q.mask ||| complUnion wT tl) (Pattern.encode wT p 0 s)
      (descEncodeFold wT 0 q t tl)

/-- Claim C6: for a description of two or more fields with pairwise
disjoint masks (and inputs of the fields' slice types), encoding onto a
base OR-combines the base with the zero-base encoding: bits of `base`
under a field's mask are OR-ed with the inserted value, not replaced. -/
theorem descEncode_or_base (wT base : Nat) (L : List (Pattern × Slice))
    (hlen : 2 ≤ L.length)
    (hmasks : ∀ q ∈ L, (Prod.fst q).mask < 2 ^ wT)
    (hdisj : pairwiseDisjointMasks (L.map (fun q => (Prod.fst q).mask)) = true)
    (hmatch : ∀ q ∈ L, Pattern.matchesSlice (Prod.fst q) (Prod.snd q) = true)
    (hbase : base < 2 ^ wT) :
    descEncode wT base L = base ||| descEncode wT 0 L := by
  cases L with
  | nil => exact absurd hlen (by simp)
  | cons hd1 tl1 =>
    cases tl1 with
    | nil => exact absurd hlen (by simp)
    | cons hd2 tl2 =>
      obtain ⟨p1, s1⟩ := hd1
      obtain ⟨p2, s2⟩ := hd2
      have hm1 : p1.mask < 2 ^ wT := hmasks (p1, s1) (by simp)
      have hm2 : p2.mask < 2 ^ wT := hmasks (p2, s2) (by simp)
      have hm12 : p1.mask &&& p2.mask = 0 := by
        simp only [List.map_cons, pairwiseDisjointMasks, List.all_cons, Bool.and_eq_true,
          beq_iff_eq] at hdisj
        exact hdisj.1.1
      have key : ∀ i, i < wT →
          (complementW wT p1.mask |||
            (complementW wT p2.mask ||| complUnion wT tl2)).testBit i = true := by
        intro i hi
        have h12 : (p1.mask &&& p2.mask).testBit i = false := by
          rw [hm12]; exact Nat.zero_testBit i
        rw [Nat.testBit_and] at h12
        rw [Nat.testBit_or, Nat.testBit_or, testBit_complementW wT p1.mask i hm1,
          testBit_complementW wT p2.mask i hm2]
        simp only [hi, decide_True, Bool.true_and]
        cases hp1 : p1.mask.testBit i with
        | false => simp
        | true =>
          cases hp2 : p2.mask.testBit i with
          | false => simp
          | true => rw [hp1, hp2] at h12; simp at h12
      have habs : base &&&
          (complementW wT p1.mask ||| (complementW wT p2.mask ||| complUnion wT tl2)) = base := by
        apply Nat.eq_of_testBit_eq
        intro i
        rw [Nat.testBit_and]
        by_cases hi : i < wT
        · rw [key i hi, Bool.and_true]
        · have hb : base < 2 ^ i :=
            lt_of_lt_of_le hbase (Nat.pow_le_pow_right (by norm_num) (Nat.le_of_not_lt hi))
          rw [Nat.testBit_lt_two_pow hb, Bool.false_and]
      have hsplit := descEncodeFold_split wT base p1 s1 ((p2, s2) :: tl2)
        (hmatch (p1, s1) (by simp)) (fun r hr => hmatch r (List.mem_cons_of_mem _ hr))
      simp only [descEncode]
      rw [hsplit]
      have hcu : complUnion wT ((p2, s2) :: tl2) =
          complementW wT p2.mask ||| complUnion wT tl2 := by
        simp [complUnion, orFold]
      rw [hcu, habs]

/-- Claim C6, witness: `LittleEndianHalves<uint32_t>::encode(0xFFFFFFFF, 0, 0)`
OR-combines the base with the zero encode and returns `0xFFFFFFFF`,
not 0. -/
theorem descEncode_or_base_witness :
    descEncode 32 0xFFFFFFFF
        [(LowerHalfPattern 32, Slice.num 0), (UpperHalfPattern 32, Slice.num 0)] =
      0xFFFFFFFF ||| descEncode 32 0
        [(LowerHalfPattern 32, Slice.num 0), (UpperHalfPattern 32, Slice.num 0)] ∧
    descEncode 32 0xFFFFFFFF
        [(LowerHalfPattern 32, Slice.num 0), (UpperHalfPattern 32, Slice.num 0)] = 0xFFFFFFFF :=
  ⟨descEncode_or_base 32 0xFFFFFFFF
      [(LowerHalfPattern 32, Slice.num 0), (UpperHalfPattern 32, Slice.num 0)]
      (by decide) (by decide) (by decide) (by decide) (by decide),
   by decide⟩
